import Mathlib

/-!
Verification of `src/emitters/szlweightedsampleadapter.h` (the
`SzlWeightedSampleAdapter` between a weighted reservoir sampler and the szl
emitter).  The header is the authority for everything it contains:
`RandomProxy::Clone`, the constructor, `AddElem`, `AddWeightedElem`,
`AddWeightedElemInternal`, `ElemTraits::SetSample`, `Clear`, `IsValid` and the
accessors.  The external `SimpleWRS` sampler and the bodies of `Encode`,
`EncodeForDisplay`, `Merge` and `SplitEncodedStr` are not part of the
repository; they are modelled from the specification (each such definition
carries a doc comment saying so).
-/

namespace Szl

/-- Byte length of a value string (`std::string::size()` on UTF-8 data). -/
def byteLen (s : String) : Nat := s.utf8ByteSize

/-! ## Random source indirection (`RandomProxy`, from the source header) -/

/-- `RandomProxy` from the source: wraps the owned real generator
(`RandomBase* real_`).  The external `RandomBase` type is abstract, so the
proxy is parametrised by the generator type `R`; a held generator is a value
of `R` (the constructor takes a non-null generator it owns). -/
structure RandomProxy (R : Type) where
  real : R

/-- `RandomProxy::Clone` from the source: clone the real generator; a NULL
result of that clone (modelled as `none`) yields NULL, otherwise a new proxy
wrapping the copy is returned. -/
def RandomProxy.Clone {R : Type} (cloneFn : R → Option R) (p : RandomProxy R) :
    Option (RandomProxy R) :=
  match cloneFn p.real with
  | none => none
  | some r => some { real := r }

/-! ## The external sampler (`SimpleWRS`), modelled from the spec -/

/-- One admission decision of the external reservoir sampler for a single
candidate: drop it, append it into a fresh slot, or replace the retained
element at slot `i`.  Claims are quantified over all decision sequences. -/
inductive WRSDecision
  | reject
  | append
  | replace (i : Nat)

/-- Modelled from the spec: the state of `SimpleWRS`, the external bounded
weighted reservoir sampler (its source is not in the repository).  It keeps at
most `max_sample_size` retained values; tags only affect which decision the
oracle takes, so they are absorbed into the decision parameter. -/
structure SimpleWRS where
  max_sample_size : Nat
  samples : List String

/-- Modelled from the spec: `SimpleWRS::ConsiderSample`, the admission oracle
(its source is not in the repository).  A non-positive weight is never
admitted; an append happens only below capacity and fills a previously empty
slot (memory delta 0 per the spec); a replacement applies
`ElemTraits::SetSample` from the source header, which records
`delta_memory = src->value->size() - dest->size()` and overwrites `dest`. -/
def ConsiderSample (s : SimpleWRS) (weight : Rat) (value : String)
    (d : WRSDecision) : SimpleWRS × Int :=
  if weight ≤ 0 then (s, 0)
  else
    match d with
    | WRSDecision.reject => (s, 0)
    | WRSDecision.append =>
        if s.samples.length < s.max_sample_size then
          ({ s with samples := s.samples ++ [value] }, 0)
        else (s, 0)
    | WRSDecision.replace i =>
        if h : i < s.samples.length then
          ({ s with samples := s.samples.set i value },
            (byteLen value : Int) - (byteLen (s.samples.get ⟨i, h⟩) : Int))
        else (s, 0)

/-! ## The adapter (from the source header) -/

/-- The adapter state from the source: the sampler instance `sampler_` and the
running total `totElems_` (an `int64`, modelled as `Int`).  The
weight-interpretation capability `weight_ops_` is a function passed explicitly
where it is used. -/
structure SzlWeightedSampleAdapter where
  sampler : SimpleWRS
  totElems : Int

/-- The constructor from the source: `totElems_(0)` and
`sampler_(maxElems, random)`; the sampler starts empty (spec: a fresh adapter
retains nothing). -/
def mkAdapter (maxE : Nat) : SzlWeightedSampleAdapter :=
  { sampler := { max_sample_size := maxE, samples := [] }, totElems := 0 }

/-- `nElems` from the source: `sampler_.current_sample_size()`. -/
def nElems (A : SzlWeightedSampleAdapter) : Nat := A.sampler.samples.length

/-- `maxElems` from the source: `sampler_.max_sample_size()`. -/
def maxElems (A : SzlWeightedSampleAdapter) : Nat := A.sampler.max_sample_size

/-- `TotElems` from the source: returns `totElems_`. -/
def TotElems (A : SzlWeightedSampleAdapter) : Int := A.totElems

/-- `Element` from the source: the i-th retained element, requires
`0 <= i < nElems()`. -/
def Element (A : SzlWeightedSampleAdapter) (i : Nat) (h : i < nElems A) :
    String :=
  A.sampler.samples.get ⟨i, h⟩

/-- `Clear` from the source: `sampler_.clear()` (spec: empties the retained
elements) and `totElems_ = 0`. -/
def Clear (A : SzlWeightedSampleAdapter) : SzlWeightedSampleAdapter :=
  { A with sampler := { A.sampler with samples := [] }, totElems := 0 }

/-- `IsValid` from the source:
`nElems() <= maxElems() && nElems() <= TotElems()`. -/
def IsValid (A : SzlWeightedSampleAdapter) : Bool :=
  decide (nElems A ≤ maxElems A) && decide ((nElems A : Int) ≤ TotElems A)

/-- `AddWeightedElemInternal` from the source: `++totElems_`, then
`sampler_.ConsiderSample(weight, &src)` on an `ElemSrc` initialised with
`delta_memory = 0`; returns `src.delta_memory`.  The sampler's decision for
this candidate is the explicit parameter `d`. -/
def AddWeightedElemInternal (A : SzlWeightedSampleAdapter) (value : String)
    (weight : Rat) (d : WRSDecision) : SzlWeightedSampleAdapter × Int :=
  let r := ConsiderSample A.sampler weight value d
  ({ sampler := r.1, totElems := A.totElems + 1 }, r.2)

/-- `AddElem` from the source: `AddWeightedElemInternal(value, 1.0)`. -/
def AddElem (A : SzlWeightedSampleAdapter) (value : String) (d : WRSDecision) :
    SzlWeightedSampleAdapter × Int :=
  AddWeightedElemInternal A value 1 d

/-- `AddWeightedElem` from the source: `weight_ops_.ToFloat(weight, &d)` and
then `AddWeightedElemInternal(value, d)`.  `ToFloat` is the external
weight-interpretation capability of `SzlOps`, over an abstract value type. -/
def AddWeightedElem {V : Type} (ToFloat : V → Rat)
    (A : SzlWeightedSampleAdapter) (value : String) (w : V) (d : WRSDecision) :
    SzlWeightedSampleAdapter × Int :=
  AddWeightedElemInternal A value (ToFloat w) d

/-- One add of a trace: feed one `(value, weight, decision)` triple through
`AddWeightedElemInternal`, keeping the state. -/
def addStep (A : SzlWeightedSampleAdapter)
    (op : String × Rat × WRSDecision) : SzlWeightedSampleAdapter :=
  (AddWeightedElemInternal A op.1 op.2.1 op.2.2).1

/-- The adapter state reached from a fresh adapter of capacity `cap` by a
finite sequence of adds (each with its sampler decision). -/
def runAdds (cap : Nat) (ops : List (String × Rat × WRSDecision)) :
    SzlWeightedSampleAdapter :=
  ops.foldl addStep (mkAdapter cap)

/-! ## The wire format (Encode / Merge / SplitEncodedStr), modelled from the
spec.  The spec leaves the exact framing an implementation choice but requires
it to be self-describing (length-prefixed or equivalent), stable across the
Encode/Merge/Split triad, and to carry the ordered retained values followed by
the total_observed count. -/

/-- Modelled from the spec: one symbol of the self-describing wire form — a
length prefix announcing an element of `n` characters, one character of an
element value, or the trailing total_observed count. -/
inductive WireTok
  | len (n : Nat)
  | chr (c : Char)
  | total (n : Int)

/-- The wire form of one retained element: its length prefix followed by its
characters. -/
def encodeElem (s : String) : List WireTok :=
  WireTok.len s.length :: s.data.map WireTok.chr

/-- The wire form of a list of retained elements, in order. -/
def encodeAll : List String → List WireTok
  | [] => []
  | s :: ss => encodeElem s ++ encodeAll ss

/-- The complete wire form: the elements followed by the total count. -/
def encodeList (elems : List String) (t : Int) : List WireTok :=
  encodeAll elems ++ [WireTok.total t]

/-- Modelled from the spec: `Encode` (its body is not in the repository) —
serializes the ordered retained values and total_observed. -/
def Encode (A : SzlWeightedSampleAdapter) : List WireTok :=
  encodeList A.sampler.samples A.totElems

/-- Modelled from the spec: `EncodeForDisplay` (its body is not in the
repository) — clears the output and emits one string per retained sample. -/
def EncodeForDisplay (A : SzlWeightedSampleAdapter) : List String :=
  A.sampler.samples

/-- The decoding loop shared by `SplitEncodedStr` and `Merge`: walks the wire
symbols with an optional in-progress element (characters still expected,
characters read so far) and the completed elements (reversed); `none` on any
malformed input. -/
def splitLoop : List WireTok → Option (Nat × List Char) → List String →
    Option (List String × Int)
  | [WireTok.total t], none, acc => some (acc.reverse, t)
  | WireTok.len 0 :: rest, none, acc => splitLoop rest none ("" :: acc)
  | WireTok.len (n + 1) :: rest, none, acc => splitLoop rest (some (n + 1, [])) acc
  | WireTok.chr c :: rest, some (1, cur), acc =>
      splitLoop rest none (String.mk (cur ++ [c]) :: acc)
  | WireTok.chr c :: rest, some (n + 2, cur), acc =>
      splitLoop rest (some (n + 1, cur ++ [c])) acc
  | _, _, _ => none

/-- Modelled from the spec: `SplitEncodedStr` (its body is not in the
repository) — decodes the wire form into one string per sample plus the total
count, validating against the declared capacity; `none` is the C++ `false`
outcome on malformed input. -/
def SplitEncodedStr (encoded : List WireTok) (max_elems : Nat) :
    Option (List String × Int) :=
  match splitLoop encoded none [] with
  | some (elems, t) =>
      if elems.length ≤ max_elems then some (elems, t) else none
  | none => none

/-- Feed each decoded element through the weight-1 admission path of the
sampler, one oracle decision per element (missing decisions reject). -/
def considerAll : SimpleWRS → List String → List WRSDecision → SimpleWRS
  | s, [], _ => s
  | s, v :: vs, [] =>
      considerAll (ConsiderSample s 1 v WRSDecision.reject).1 vs []
  | s, v :: vs, d :: ds => considerAll (ConsiderSample s 1 v d).1 vs ds

/-- Modelled from the spec: `Merge` (its body is not in the repository) —
decodes the wire form against this adapter's capacity, folds each decoded
value back through the weight-1 admission path, and adds the decoded
total_observed directly to this adapter's own count; returns `false` on
malformed input. -/
def Merge (A : SzlWeightedSampleAdapter) (encoded : List WireTok)
    (ds : List WRSDecision) : SzlWeightedSampleAdapter × Bool :=
  match SplitEncodedStr encoded (maxElems A) with
  | none => (A, false)
  | some (elems, t) =>
      ({ sampler := considerAll A.sampler elems ds,
         totElems := A.totElems + t }, true)

/-- Well-formedness of a wire sequence relative to a capacity: it is the exact
encoding of some element list within capacity, with some total count. -/
def WellFormedEnc (encoded : List WireTok) (cap : Nat) : Prop :=
  ∃ elems t, encoded = encodeList elems t ∧ elems.length ≤ cap

/-- What a successful run of `splitLoop` says about its input: from the idle
state the input is exactly a full wire form; mid-element, the input first
supplies the still-expected characters of the current element and then a full
wire form of the remaining elements. -/
def stateSpec : Option (Nat × List Char) → List WireTok → List String →
    List String → Int → Prop
  | none, toks, acc, out, t =>
      ∃ elems, out = acc.reverse ++ elems ∧ toks = encodeList elems t
  | some (n, cur), toks, acc, out, t =>
      ∃ cs elems, List.length cs = n ∧
        toks = cs.map WireTok.chr ++ encodeList elems t ∧
        out = acc.reverse ++ String.mk (cur ++ cs) :: elems

/-! ## Basic sampler lemmas -/

/-- `ConsiderSample` never changes the sampler's capacity. -/
lemma ConsiderSample_max (s : SimpleWRS) (w : Rat) (v : String)
    (d : WRSDecision) :
    (ConsiderSample s w v d).1.max_sample_size = s.max_sample_size := by
  unfold ConsiderSample
  split
  · rfl
  · cases d with
    | reject => rfl
    | append => dsimp only; split <;> rfl
    | replace i => dsimp only; split <;> rfl

/-- `ConsiderSample` keeps the sample count within capacity. -/
lemma ConsiderSample_length_le (s : SimpleWRS) (w : Rat) (v : String)
    (d : WRSDecision) (h : s.samples.length ≤ s.max_sample_size) :
    (ConsiderSample s w v d).1.samples.length ≤ s.max_sample_size := by
  unfold ConsiderSample
  split
  · exact h
  · cases d with
    | reject => exact h
    | append =>
        dsimp only
        split
        · show (s.samples ++ [v]).length ≤ s.max_sample_size
          simp only [List.length_append, List.length_singleton]
          omega
        · exact h
    | replace i =>
        dsimp only
        split
        · show (s.samples.set i v).length ≤ s.max_sample_size
          rw [List.length_set]
          exact h
        · exact h

/-- `ConsiderSample` grows the sample count by at most one. -/
lemma ConsiderSample_length_le_succ (s : SimpleWRS) (w : Rat) (v : String)
    (d : WRSDecision) :
    (ConsiderSample s w v d).1.samples.length ≤ s.samples.length + 1 := by
  unfold ConsiderSample
  split
  · exact Nat.le_succ _
  · cases d with
    | reject => exact Nat.le_succ _
    | append =>
        dsimp only
        split
        · show (s.samples ++ [v]).length ≤ s.samples.length + 1
          simp only [List.length_append, List.length_singleton]
          exact Nat.le_refl _
        · exact Nat.le_succ _
    | replace i =>
        dsimp only
        split
        · show (s.samples.set i v).length ≤ s.samples.length + 1
          rw [List.length_set]
          exact Nat.le_succ _
        · exact Nat.le_succ _

/-! ## The reachable-state invariant -/

/-- The invariant of claim C4, as a proposition. -/
def Inv (A : SzlWeightedSampleAdapter) : Prop :=
  nElems A ≤ maxElems A ∧ (nElems A : Int) ≤ TotElems A

lemma inv_mkAdapter (cap : Nat) : Inv (mkAdapter cap) := by
  constructor <;> simp [Inv, mkAdapter, nElems, maxElems, TotElems]

lemma inv_addStep (A : SzlWeightedSampleAdapter)
    (op : String × Rat × WRSDecision) (h : Inv A) : Inv (addStep A op) := by
  obtain ⟨h1, h2⟩ := h
  constructor
  · show (ConsiderSample A.sampler op.2.1 op.1 op.2.2).1.samples.length ≤
      (ConsiderSample A.sampler op.2.1 op.1 op.2.2).1.max_sample_size
    rw [ConsiderSample_max]
    exact ConsiderSample_length_le _ _ _ _ h1
  · show ((ConsiderSample A.sampler op.2.1 op.1 op.2.2).1.samples.length : Int)
      ≤ A.totElems + 1
    have h3 := ConsiderSample_length_le_succ A.sampler op.2.1 op.1 op.2.2
    have h4 : (nElems A : Int) ≤ TotElems A := h2
    simp only [nElems, TotElems] at h4
    omega

lemma inv_foldl (ops : List (String × Rat × WRSDecision)) :
    ∀ A : SzlWeightedSampleAdapter, Inv A → Inv (ops.foldl addStep A) := by
  induction ops with
  | nil => intro A h; exact h
  | cons op rest ih =>
      intro A h
      exact ih _ (inv_addStep A op h)

lemma inv_runAdds (cap : Nat) (ops : List (String × Rat × WRSDecision)) :
    Inv (runAdds cap ops) :=
  inv_foldl ops _ (inv_mkAdapter cap)

lemma maxElems_addStep (A : SzlWeightedSampleAdapter)
    (op : String × Rat × WRSDecision) : maxElems (addStep A op) = maxElems A :=
  ConsiderSample_max _ _ _ _

lemma maxElems_foldl (ops : List (String × Rat × WRSDecision)) :
    ∀ A : SzlWeightedSampleAdapter, maxElems (ops.foldl addStep A) = maxElems A := by
  induction ops with
  | nil => intro A; rfl
  | cons op rest ih =>
      intro A
      rw [List.foldl_cons, ih, maxElems_addStep]

lemma maxElems_runAdds (cap : Nat) (ops : List (String × Rat × WRSDecision)) :
    maxElems (runAdds cap ops) = cap :=
  maxElems_foldl ops (mkAdapter cap)

/-! ## Claim theorems: adds, clear, construction, cloning -/

/-- C5: every call to `AddWeightedElemInternal` — hence to `AddElem` and
`AddWeightedElem`, which defer to it — increments `TotElems` by exactly 1,
unconditionally: for every weight (including non-positive ones) and every
sampler decision. -/
theorem c5_total_observed_increment :
    (∀ (A : SzlWeightedSampleAdapter) (v : String) (w : Rat) (d : WRSDecision),
      TotElems (AddWeightedElemInternal A v w d).1 = TotElems A + 1)
    ∧ (∀ (A : SzlWeightedSampleAdapter) (v : String) (d : WRSDecision),
      TotElems (AddElem A v d).1 = TotElems A + 1)
    ∧ ∀ (V : Type) (ToFloat : V → Rat) (A : SzlWeightedSampleAdapter)
        (v : String) (w : V) (d : WRSDecision),
      TotElems (AddWeightedElem ToFloat A v w d).1 = TotElems A + 1 := by
  refine ⟨fun A v w d => rfl, fun A v d => rfl, fun V f A v w d => rfl⟩

/-- C6: after `Clear()` on any adapter the element count and total are zero,
`IsValid` holds, and the capacity is unchanged. -/
theorem c6_clear (A : SzlWeightedSampleAdapter) :
    nElems (Clear A) = 0 ∧ TotElems (Clear A) = 0 ∧
    IsValid (Clear A) = true ∧ maxElems (Clear A) = maxElems A := by
  refine ⟨rfl, rfl, ?_, rfl⟩
  simp [IsValid, Clear, nElems, maxElems, TotElems]

/-- C7: the unweighted `AddElem` is exactly `AddWeightedElem` with a weight
interpreted as 1 — same returned delta and same resulting state. -/
theorem c7_unweighted_is_weight_one {V : Type} (ToFloat : V → Rat)
    (A : SzlWeightedSampleAdapter) (v : String) (w : V) (d : WRSDecision)
    (h : ToFloat w = 1) :
    AddWeightedElem ToFloat A v w d = AddElem A v d := by
  unfold AddWeightedElem AddElem
  rw [h]

/-- Witness for C7 at a concrete weight value. -/
theorem c7_unweighted_is_weight_one_witness :
    AddWeightedElem (fun q : Rat => q) (mkAdapter 2) ("a") 1
      WRSDecision.append = AddElem (mkAdapter 2) ("a") WRSDecision.append :=
  c7_unweighted_is_weight_one (fun q : Rat => q) (mkAdapter 2) ("a") 1
    WRSDecision.append rfl

/-- C9: `RandomProxy::Clone` returns NULL exactly when cloning the real
generator fails; when that clone succeeds, it returns a proxy wrapping exactly
that clone (never a proxy around a null generator). -/
theorem c9_randomproxy_clone {R : Type} (cloneFn : R → Option R)
    (p : RandomProxy R) :
    (RandomProxy.Clone cloneFn p = none ↔ cloneFn p.real = none)
    ∧ ∀ r : R, cloneFn p.real = some r →
        RandomProxy.Clone cloneFn p = some { real := r } := by
  constructor
  · unfold RandomProxy.Clone
    cases h : cloneFn p.real <;> simp
  · intro r h
    unfold RandomProxy.Clone
    rw [h]

/-- Witness for C9 at a concrete generator type and clone function. -/
theorem c9_randomproxy_clone_witness :
    (RandomProxy.Clone (fun n : Nat => some (n + 1)) { real := 0 } = none
      ↔ (fun n : Nat => some (n + 1)) 0 = none)
    ∧ RandomProxy.Clone (fun n : Nat => some (n + 1)) { real := 0 }
        = some { real := 1 } :=
  ⟨(c9_randomproxy_clone (fun n : Nat => some (n + 1)) { real := 0 }).1,
    (c9_randomproxy_clone (fun n : Nat => some (n + 1)) { real := 0 }).2 1 rfl⟩

/-- C10: a freshly constructed adapter has total 0, retains nothing, has the
capacity passed at construction, and is valid. -/
theorem c10_fresh_adapter (cap : Nat) :
    TotElems (mkAdapter cap) = 0 ∧ nElems (mkAdapter cap) = 0 ∧
    maxElems (mkAdapter cap) = cap ∧ IsValid (mkAdapter cap) = true := by
  refine ⟨rfl, rfl, rfl, ?_⟩
  simp [IsValid, mkAdapter, nElems, maxElems, TotElems]

/-- C4: `IsValid` returns exactly the conjunction
`nElems ≤ maxElems ∧ nElems ≤ TotElems`, and it returns `true` in every state
reachable by a finite sequence of adds from a fresh adapter. -/
theorem c4_reachable_invariant :
    (∀ A : SzlWeightedSampleAdapter,
      IsValid A = true ↔ nElems A ≤ maxElems A ∧ (nElems A : Int) ≤ TotElems A)
    ∧ ∀ (cap : Nat) (ops : List (String × Rat × WRSDecision)),
        IsValid (runAdds cap ops) = true := by
  constructor
  · intro A
    simp [IsValid]
  · intro cap ops
    have h := inv_runAdds cap ops
    simp [IsValid]
    exact h

/-- C2: if the sampler admits the new value by replacing retained element `i`
(positive weight, in-range replace decision), the returned delta is the byte
length of the new value minus the byte length of the replaced element; in
every other case (non-positive weight, rejection, append into an empty slot,
or an out-of-range replace) the returned delta is 0. -/
theorem c2_memory_delta (A : SzlWeightedSampleAdapter) (v : String) (w : Rat)
    (d : WRSDecision) :
    (∀ i, (hi : i < nElems A) → 0 < w → d = WRSDecision.replace i →
      (AddWeightedElemInternal A v w d).2
        = (byteLen v : Int) - (byteLen (Element A i hi) : Int))
    ∧ (¬ (0 < w ∧ ∃ i, d = WRSDecision.replace i ∧ i < nElems A) →
      (AddWeightedElemInternal A v w d).2 = 0) := by
  constructor
  · intro i hi hw hd
    subst hd
    show (ConsiderSample A.sampler w v (WRSDecision.replace i)).2 = _
    unfold ConsiderSample
    rw [if_neg (not_le.mpr hw)]
    dsimp only
    rw [dif_pos (show i < A.sampler.samples.length from hi)]
    rfl
  · intro hno
    show (ConsiderSample A.sampler w v d).2 = 0
    unfold ConsiderSample
    by_cases hw : w ≤ 0
    · rw [if_pos hw]
    · rw [if_neg hw]
      cases d with
      | reject => rfl
      | append => dsimp only; split <;> rfl
      | replace i =>
          dsimp only
          have hr : ¬ i < A.sampler.samples.length := by
            intro hlt
            exact hno ⟨not_le.mp hw, i, rfl, hlt⟩
          rw [dif_neg hr]

/-- Witness for C2: a concrete replacement yields the byte-length difference,
and a concrete rejection yields 0. -/
theorem c2_memory_delta_witness :
    (AddWeightedElemInternal
      (runAdds 2 [(("a"), 1, WRSDecision.append)]) ("xyz") 1
      (WRSDecision.replace 0)).2 = 2
    ∧ (AddWeightedElemInternal
      (runAdds 2 [(("a"), 1, WRSDecision.append)]) ("xyz") 1
      WRSDecision.reject).2 = 0 := by
  constructor
  · have h := (c2_memory_delta (runAdds 2 [(("a"), 1, WRSDecision.append)])
      ("xyz") 1 (WRSDecision.replace 0)).1 0 (by decide) (by decide) rfl
    rw [h]
    decide
  · exact (c2_memory_delta (runAdds 2 [(("a"), 1, WRSDecision.append)])
      ("xyz") 1 WRSDecision.reject).2 (by rintro ⟨-, i, h, -⟩; cases h)

/-! ## Decoding lemmas -/

lemma splitLoop_nil (st : Option (Nat × List Char)) (acc : List String) :
    splitLoop [] st acc = none := by
  cases st with
  | none => rfl
  | some p => cases p; rfl

lemma splitLoop_total (t : Int) (acc : List String) :
    splitLoop [WireTok.total t] none acc = some (acc.reverse, t) := rfl

lemma splitLoop_len0 (rest : List WireTok) (acc : List String) :
    splitLoop (WireTok.len 0 :: rest) none acc =
      splitLoop rest none ("" :: acc) := rfl

lemma splitLoop_lenS (n : Nat) (rest : List WireTok) (acc : List String) :
    splitLoop (WireTok.len (n + 1) :: rest) none acc =
      splitLoop rest (some (n + 1, [])) acc := rfl

lemma splitLoop_chr1 (c : Char) (rest : List WireTok) (cur : List Char)
    (acc : List String) :
    splitLoop (WireTok.chr c :: rest) (some (1, cur)) acc =
      splitLoop rest none (String.mk (cur ++ [c]) :: acc) := rfl

lemma splitLoop_chrS (c : Char) (n : Nat) (rest : List WireTok)
    (cur : List Char) (acc : List String) :
    splitLoop (WireTok.chr c :: rest) (some (n + 2, cur)) acc =
      splitLoop rest (some (n + 1, cur ++ [c])) acc := rfl

/-- Reading the characters of one element moves the loop past them and
completes the element. -/
lemma splitLoop_chars : ∀ (cs : List Char) (c : Char) (cur : List Char)
    (rest : List WireTok) (acc : List String),
    splitLoop ((c :: cs).map WireTok.chr ++ rest) (some (cs.length + 1, cur)) acc
      = splitLoop rest none (String.mk (cur ++ c :: cs) :: acc) := by
  intro cs
  induction cs with
  | nil => intro c cur rest acc; exact splitLoop_chr1 c rest cur acc
  | cons c2 cs2 ih =>
      intro c cur rest acc
      show splitLoop (WireTok.chr c :: ((c2 :: cs2).map WireTok.chr ++ rest))
        (some (cs2.length + 2, cur)) acc = _
      rw [splitLoop_chrS, ih]
      simp only [List.append_assoc, List.cons_append, List.nil_append]

/-- Decoding moves past one encoded element. -/
lemma splitLoop_encodeElem (s : String) (rest : List WireTok)
    (acc : List String) :
    splitLoop (encodeElem s ++ rest) none acc = splitLoop rest none (s :: acc) := by
  cases s with
  | mk data =>
      cases data with
      | nil => exact splitLoop_len0 rest acc
      | cons c cs =>
          show splitLoop (WireTok.len (cs.length + 1) ::
            ((c :: cs).map WireTok.chr ++ rest)) none acc = _
          rw [splitLoop_lenS, splitLoop_chars]
          rfl

/-- Round trip of the full wire form. -/
lemma splitLoop_encodeList : ∀ (elems : List String) (t : Int)
    (acc : List String),
    splitLoop (encodeList elems t) none acc = some (acc.reverse ++ elems, t) := by
  intro elems
  induction elems with
  | nil =>
      intro t acc
      show splitLoop [WireTok.total t] none acc = _
      rw [splitLoop_total]
      simp
  | cons s ss ih =>
      intro t acc
      show splitLoop ((encodeElem s ++ encodeAll ss) ++ [WireTok.total t])
        none acc = _
      rw [List.append_assoc, splitLoop_encodeElem]
      rw [show encodeAll ss ++ [WireTok.total t] = encodeList ss t from rfl, ih]
      simp

lemma splitLoop_total_cons (t : Int) (r : WireTok) (rs : List WireTok)
    (acc : List String) :
    splitLoop (WireTok.total t :: r :: rs) none acc = none := rfl

lemma splitLoop_total_some (t : Int) (rest : List WireTok) (n : Nat)
    (cur : List Char) (acc : List String) :
    splitLoop (WireTok.total t :: rest) (some (n, cur)) acc = none := by
  cases rest with
  | nil => rfl
  | cons r rs => rfl

lemma splitLoop_len_some (n : Nat) (rest : List WireTok) (m : Nat)
    (cur : List Char) (acc : List String) :
    splitLoop (WireTok.len n :: rest) (some (m, cur)) acc = none := by
  cases n with
  | zero => rfl
  | succ k => rfl

lemma splitLoop_chr_none (c : Char) (rest : List WireTok) (acc : List String) :
    splitLoop (WireTok.chr c :: rest) none acc = none := rfl

lemma splitLoop_chr_some0 (c : Char) (rest : List WireTok) (cur : List Char)
    (acc : List String) :
    splitLoop (WireTok.chr c :: rest) (some (0, cur)) acc = none := rfl

lemma encodeList_cons (s : String) (ss : List String) (t : Int) :
    encodeList (s :: ss) t = encodeElem s ++ encodeList ss t := by
  simp [encodeList, encodeAll, List.append_assoc]

/-- A successful decode means the input was exactly a wire form. -/
lemma splitLoop_sound : ∀ (toks : List WireTok)
    (st : Option (Nat × List Char)) (acc out : List String) (t : Int),
    splitLoop toks st acc = some (out, t) → stateSpec st toks acc out t := by
  intro toks
  induction toks with
  | nil =>
      intro st acc out t h
      rw [splitLoop_nil] at h
      cases h
  | cons x rest ih =>
      intro st acc out t h
      cases x with
      | total t2 =>
          cases st with
          | some p =>
              obtain ⟨n, cur⟩ := p
              rw [splitLoop_total_some] at h
              cases h
          | none =>
              cases rest with
              | nil =>
                  rw [splitLoop_total] at h
                  simp only [Option.some.injEq, Prod.mk.injEq] at h
                  obtain ⟨rfl, rfl⟩ := h
                  exact ⟨[], by simp, rfl⟩
              | cons r rs =>
                  rw [splitLoop_total_cons] at h
                  cases h
      | len n =>
          cases st with
          | some p =>
              obtain ⟨m, cur⟩ := p
              rw [splitLoop_len_some] at h
              cases h
          | none =>
              cases n with
              | zero =>
                  rw [splitLoop_len0] at h
                  have hs := ih none (String.mk [] :: acc) out t h
                  simp only [stateSpec] at hs ⊢
                  obtain ⟨elems2, hout, henc⟩ := hs
                  refine ⟨String.mk [] :: elems2, ?_, ?_⟩
                  · rw [hout]; simp
                  · rw [henc, encodeList_cons]
                    rfl
              | succ m =>
                  rw [splitLoop_lenS] at h
                  have hs := ih (some (m + 1, [])) acc out t h
                  simp only [stateSpec] at hs ⊢
                  obtain ⟨cs, elems2, hcs, hrest, hout⟩ := hs
                  refine ⟨String.mk cs :: elems2, ?_, ?_⟩
                  · rw [hout]; simp
                  · rw [encodeList_cons, hrest, ← hcs]
                    rfl
      | chr c =>
          cases st with
          | none =>
              rw [splitLoop_chr_none] at h
              cases h
          | some p =>
              obtain ⟨n, cur⟩ := p
              cases n with
              | zero =>
                  rw [splitLoop_chr_some0] at h
                  cases h
              | succ n1 =>
                  cases n1 with
                  | zero =>
                      rw [splitLoop_chr1] at h
                      have hs := ih none (String.mk (cur ++ [c]) :: acc) out t h
                      simp only [stateSpec] at hs ⊢
                      obtain ⟨elems2, hout, henc⟩ := hs
                      refine ⟨[c], elems2, rfl, ?_, ?_⟩
                      · rw [henc]; rfl
                      · rw [hout]; simp
                  | succ m =>
                      rw [splitLoop_chrS] at h
                      have hs := ih (some (m + 1, cur ++ [c])) acc out t h
                      simp only [stateSpec] at hs ⊢
                      obtain ⟨cs2, elems2, hcs, hrest, hout⟩ := hs
                      refine ⟨c :: cs2, elems2, ?_, ?_, ?_⟩
                      · simp [hcs]
                      · rw [hrest]; rfl
                      · rw [hout]; simp

/-- `SplitEncodedStr` succeeds exactly on well-formed input. -/
lemma splitEncoded_isSome_iff (encoded : List WireTok) (cap : Nat) :
    (SplitEncodedStr encoded cap).isSome = true ↔ WellFormedEnc encoded cap := by
  constructor
  · intro h
    unfold SplitEncodedStr at h
    cases hsp : splitLoop encoded none [] with
    | none => rw [hsp] at h; cases h
    | some p =>
        obtain ⟨elems, t⟩ := p
        rw [hsp] at h
        dsimp only at h
        by_cases hlen : elems.length ≤ cap
        · have hs := splitLoop_sound encoded none [] elems t hsp
          simp only [stateSpec] at hs
          obtain ⟨elems2, hout, henc⟩ := hs
          simp only [List.reverse_nil, List.nil_append] at hout
          exact ⟨elems2, t, henc, hout ▸ hlen⟩
        · rw [if_neg hlen] at h
          cases h
  · rintro ⟨elems, t, rfl, hlen⟩
    unfold SplitEncodedStr
    have hs := splitLoop_encodeList elems t []
    simp only [List.reverse_nil, List.nil_append] at hs
    rw [hs]
    dsimp only
    rw [if_pos hlen]
    rfl

/-- The boolean returned by `Merge` is exactly decode success. -/
lemma merge_flag (A : SzlWeightedSampleAdapter) (encoded : List WireTok)
    (ds : List WRSDecision) :
    (Merge A encoded ds).2 = (SplitEncodedStr encoded (maxElems A)).isSome := by
  unfold Merge
  cases h : SplitEncodedStr encoded (maxElems A) with
  | none => rfl
  | some p => obtain ⟨elems, t⟩ := p; rfl

/-- No symbol of the element section of the wire form is a total marker. -/
lemma ne_total_of_mem_encodeAll : ∀ (elems : List String) (x : WireTok),
    x ∈ encodeAll elems → ∀ t2 : Int, x ≠ WireTok.total t2 := by
  intro elems
  induction elems with
  | nil => intro x hx; simp [encodeAll] at hx
  | cons s ss ih =>
      intro x hx t2
      simp only [encodeAll, List.mem_append] at hx
      cases hx with
      | inl h =>
          simp only [encodeElem, List.mem_cons, List.mem_map] at h
          cases h with
          | inl h => subst h; intro hc; cases hc
          | inr h =>
              obtain ⟨c, -, h⟩ := h
              subst h
              intro hc
              cases hc
      | inr h => exact ih x h t2

/-- Every strict truncation of a wire form fails to decode, at any declared
capacity. -/
lemma splitEncoded_take_none (elems : List String) (t : Int) (cap k : Nat)
    (hk : k < (encodeList elems t).length) :
    SplitEncodedStr ((encodeList elems t).take k) cap = none := by
  cases hres : SplitEncodedStr ((encodeList elems t).take k) cap with
  | none => rfl
  | some p =>
      exfalso
      have hsome : (SplitEncodedStr ((encodeList elems t).take k) cap).isSome
          = true := by rw [hres]; rfl
      rw [splitEncoded_isSome_iff] at hsome
      obtain ⟨elems2, t2, heq, -⟩ := hsome
      have hlen : k ≤ (encodeAll elems).length := by
        have hL : (encodeList elems t).length = (encodeAll elems).length + 1 := by
          simp [encodeList]
        omega
      rw [show encodeList elems t = encodeAll elems ++ [WireTok.total t] from rfl,
        List.take_append_of_le_length hlen] at heq
      have hmem : WireTok.total t2 ∈ (encodeAll elems).take k := by
        rw [heq]
        simp [encodeList]
      have hmem2 : WireTok.total t2 ∈ encodeAll elems :=
        List.take_subset k (encodeAll elems) hmem
      exact ne_total_of_mem_encodeAll elems _ hmem2 t2 rfl

/-- `considerAll` never changes the sampler's capacity. -/
lemma considerAll_max : ∀ (vs : List String) (s : SimpleWRS)
    (ds : List WRSDecision),
    (considerAll s vs ds).max_sample_size = s.max_sample_size := by
  intro vs
  induction vs with
  | nil => intro s ds; cases ds <;> rfl
  | cons v vs2 ih =>
      intro s ds
      cases ds with
      | nil => rw [show considerAll s (v :: vs2) [] =
            considerAll (ConsiderSample s 1 v WRSDecision.reject).1 vs2 []
            from rfl, ih, ConsiderSample_max]
      | cons d ds2 => rw [show considerAll s (v :: vs2) (d :: ds2) =
            considerAll (ConsiderSample s 1 v d).1 vs2 ds2
            from rfl, ih, ConsiderSample_max]

/-- `considerAll` keeps the sample count within capacity. -/
lemma considerAll_length_le : ∀ (vs : List String) (s : SimpleWRS)
    (ds : List WRSDecision), s.samples.length ≤ s.max_sample_size →
    (considerAll s vs ds).samples.length ≤ s.max_sample_size := by
  intro vs
  induction vs with
  | nil => intro s ds h; cases ds <;> exact h
  | cons v vs2 ih =>
      intro s ds h
      cases ds with
      | nil =>
          show (considerAll (ConsiderSample s 1 v WRSDecision.reject).1 vs2
            []).samples.length ≤ s.max_sample_size
          have h2 := ConsiderSample_length_le s 1 v WRSDecision.reject h
          have h3 := ConsiderSample_max s 1 v WRSDecision.reject
          have h4 := ih (ConsiderSample s 1 v WRSDecision.reject).1 []
            (by rw [h3]; exact h2)
          rwa [h3] at h4
      | cons d ds2 =>
          show (considerAll (ConsiderSample s 1 v d).1 vs2
            ds2).samples.length ≤ s.max_sample_size
          have h2 := ConsiderSample_length_le s 1 v d h
          have h3 := ConsiderSample_max s 1 v d
          have h4 := ih (ConsiderSample s 1 v d).1 ds2 (by rw [h3]; exact h2)
          rwa [h3] at h4

/-! ## Claim theorems: the encode / merge / split protocol -/

/-- C1: for any adapter state reachable by a finite sequence of adds,
splitting the encoded bytes with the same capacity yields exactly the
retained elements and the exact total count, and this equals what
`EncodeForDisplay` produces. -/
theorem c1_encode_split_roundtrip (cap : Nat)
    (ops : List (String × Rat × WRSDecision)) :
    SplitEncodedStr (Encode (runAdds cap ops)) (maxElems (runAdds cap ops))
      = some (EncodeForDisplay (runAdds cap ops), TotElems (runAdds cap ops))
    ∧ EncodeForDisplay (runAdds cap ops) = (runAdds cap ops).sampler.samples := by
  refine ⟨?_, rfl⟩
  have hs := splitLoop_encodeList (runAdds cap ops).sampler.samples
    (runAdds cap ops).totElems []
  simp only [List.reverse_nil, List.nil_append] at hs
  unfold SplitEncodedStr Encode
  rw [hs]
  dsimp only
  rw [if_pos (show (runAdds cap ops).sampler.samples.length ≤
    maxElems (runAdds cap ops) from (inv_runAdds cap ops).1)]
  rfl

/-- C3: merging bytes encoded by an adapter of the same capacity succeeds,
never pushes the element count beyond the capacity, and adds exactly the
encoded adapter's total to this adapter's total. -/
theorem c3_merge_counts (cap : Nat)
    (opsA opsB : List (String × Rat × WRSDecision)) (ds : List WRSDecision) :
    (Merge (runAdds cap opsA) (Encode (runAdds cap opsB)) ds).2 = true
    ∧ nElems (Merge (runAdds cap opsA) (Encode (runAdds cap opsB)) ds).1 ≤ cap
    ∧ TotElems (Merge (runAdds cap opsA) (Encode (runAdds cap opsB)) ds).1
        = TotElems (runAdds cap opsA) + TotElems (runAdds cap opsB) := by
  have hBle : (runAdds cap opsB).sampler.samples.length ≤ cap := by
    have h := (inv_runAdds cap opsB).1
    have h2 := maxElems_runAdds cap opsB
    simp only [nElems, maxElems] at h h2
    omega
  have hsome : SplitEncodedStr (Encode (runAdds cap opsB))
      (maxElems (runAdds cap opsA))
      = some ((runAdds cap opsB).sampler.samples, (runAdds cap opsB).totElems) := by
    have hs := splitLoop_encodeList (runAdds cap opsB).sampler.samples
      (runAdds cap opsB).totElems []
    simp only [List.reverse_nil, List.nil_append] at hs
    unfold SplitEncodedStr Encode
    rw [hs]
    dsimp only
    rw [if_pos (show (runAdds cap opsB).sampler.samples.length ≤
      maxElems (runAdds cap opsA) from by rw [maxElems_runAdds]; exact hBle)]
  unfold Merge
  rw [hsome]
  refine ⟨rfl, ?_, rfl⟩
  show (considerAll (runAdds cap opsA).sampler
    (runAdds cap opsB).sampler.samples ds).samples.length ≤ cap
  have hA := (inv_runAdds cap opsA).1
  have hAmax := maxElems_runAdds cap opsA
  simp only [nElems, maxElems] at hA hAmax
  have h := considerAll_length_le (runAdds cap opsB).sampler.samples
    (runAdds cap opsA).sampler ds hA
  omega

/-- C8: `SplitEncodedStr` and `Merge` report success (`some` / `true`) exactly
on well-formed input and a recoverable failure (`none` / `false`) on every
malformed byte sequence; in particular every strict truncation of an
`Encode` output fails to decode. -/
theorem c8_malformed_rejected :
    (∀ (encoded : List WireTok) (cap : Nat),
      (SplitEncodedStr encoded cap).isSome = true ↔ WellFormedEnc encoded cap)
    ∧ (∀ (A : SzlWeightedSampleAdapter) (encoded : List WireTok)
        (ds : List WRSDecision),
      (Merge A encoded ds).2 = true ↔ WellFormedEnc encoded (maxElems A))
    ∧ ∀ (A : SzlWeightedSampleAdapter) (cap k : Nat),
        k < (Encode A).length →
        SplitEncodedStr ((Encode A).take k) cap = none := by
  refine ⟨splitEncoded_isSome_iff, ?_, ?_⟩
  · intro A encoded ds
    rw [merge_flag]
    exact splitEncoded_isSome_iff encoded (maxElems A)
  · intro A cap k hk
    exact splitEncoded_take_none A.sampler.samples A.totElems cap k hk

/-- Witness for C8: the empty truncation of a concrete encoding fails. -/
theorem c8_malformed_rejected_witness :
    SplitEncodedStr ((Encode (mkAdapter 1)).take 0) 1 = none :=
  c8_malformed_rejected.2.2 (mkAdapter 1) 1 0 (by decide)

end Szl
